import Mathlib

/-!
Verification of the SimGrid cluster examples
(`simgrid_cluster_with_errors.cpp` and
`simgrid_cluster_with_historical_errors.cpp`).

The C++ sources are embedded shallowly: doubles become exact rationals
(`ℚ`), the worker's while-loop becomes a fuel-indexed recursion (the fuel
of 150 dominates the loop's true iteration count, which is at most 101:
the timeout ceiling caps the loop at 100 full slices of 0.1 s plus the
aborting check), the mutex-guarded counter updates become a sequential
fold over the interleaved sequence of outcomes, and
`std::discrete_distribution` is modelled by its standard inverse-CDF
semantics over integer weights.
-/

set_option maxRecDepth 8000

namespace SimgridCluster

/-- The `Job` struct of both C++ files: a name, a simulated load and an
error code (`0` means success, the constructor initialises it to `0`). -/
structure Job where
  name : String
  load : ℚ
  error_code : Int
deriving DecidableEq, Repr

/-- `MAX_WORKERS` from `simgrid_cluster_with_historical_errors.cpp`. -/
def MAX_WORKERS : Nat := 20

/-- The worker's per-job slice loop from
`simgrid_cluster_with_historical_errors.cpp` (lines 113-128):

    double elapsed = 0.0; double slice = 0.1;
    while (elapsed < job->load) {
        if (elapsed >= 10.0) { job->error_code = -1; break; }
        double remaining = job->load - elapsed;
        double sleep_time = min(slice, remaining);
        this_actor::sleep_for(sleep_time);
        elapsed += sleep_time;
    }

The function returns the final `(error_code, elapsed)` pair.  The loop is
indexed by fuel; 150 units of fuel are ample (the timeout ceiling bounds
the loop at 101 iterations for every load, which the lemmas below make
precise). -/
def sliceLoop : Nat → ℚ → ℚ → Int × ℚ
  | 0, _, elapsed => (0, elapsed)
  | fuel+1, load, elapsed =>
    if elapsed < load then
      if 10 ≤ elapsed then (-1, elapsed)
      else
        let remaining := load - elapsed
        let sleep_time := min (1/10) remaining
        sliceLoop fuel load (elapsed + sleep_time)
    else (0, elapsed)

/-- Processing one job: the slice loop run from `elapsed = 0` with ample
fuel. -/
def processJob (load : ℚ) : Int × ℚ := sliceLoop 150 load 0

/-- If the load is reachable under the 10-second ceiling
(`elapsed ≤ load ≤ 10`) and the fuel dominates the number of remaining
slices, the loop ends with `error_code = 0` and `elapsed = load`. -/
theorem sliceLoop_complete (fuel : Nat) :
    ∀ load elapsed : ℚ, elapsed ≤ load → load ≤ 10 →
      (load - elapsed) * 10 + 1 ≤ (fuel : ℚ) →
      sliceLoop fuel load elapsed = (0, load) := by
  induction fuel with
  | zero =>
    intro load elapsed hle _ hfuel
    exfalso
    have h0 : (0 : ℚ) ≤ load - elapsed := by linarith
    simp only [Nat.cast_zero] at hfuel
    linarith
  | succ fuel ih =>
    intro load elapsed hle hceil hfuel
    by_cases hlt : elapsed < load
    · have hten : ¬ (10 : ℚ) ≤ elapsed := by linarith
      rw [sliceLoop, if_pos hlt, if_neg hten]
      show sliceLoop fuel load (elapsed + min (1/10) (load - elapsed)) = (0, load)
      rcases le_total (1/10 : ℚ) (load - elapsed) with hmin | hmin
      · rw [min_eq_left hmin]
        apply ih
        · linarith
        · exact hceil
        · push_cast at hfuel ⊢
          linarith
      · rw [min_eq_right hmin]
        have hstep : elapsed + (load - elapsed) = load := by ring
        rw [hstep]
        apply ih load load le_rfl hceil
        have hpos : (0 : ℚ) < (load - elapsed) * 10 := by
          have : (0 : ℚ) < load - elapsed := by linarith
          linarith
        push_cast at hfuel ⊢
        have hfpos : (0 : ℚ) < (fuel : ℚ) := by linarith
        have hfnat : 0 < fuel := by exact_mod_cast hfpos
        have hfge : (1 : ℚ) ≤ (fuel : ℚ) := by exact_mod_cast hfnat
        linarith
    · have heq : elapsed = load := le_antisymm hle (le_of_not_lt hlt)
      rw [sliceLoop, if_neg hlt, heq]

/-- If the load strictly exceeds the 10-second ceiling, the loop started
at `elapsed = k/10` (for `k ≤ 100`, with fuel at least `101 - k`) aborts
with `error_code = -1` at `elapsed = 10`. -/
theorem sliceLoop_timeout (fuel : Nat) :
    ∀ k : Nat, ∀ load : ℚ, k ≤ 100 → 101 - k ≤ fuel → 10 < load →
      sliceLoop fuel load ((k : ℚ) / 10) = (-1, 10) := by
  induction fuel with
  | zero =>
    intro k load hk hf _
    omega
  | succ fuel ih =>
    intro k load hk hf hl
    by_cases hk100 : k = 100
    · subst hk100
      have he : ((100 : Nat) : ℚ) / 10 = 10 := by norm_num
      rw [he]
      rw [sliceLoop, if_pos hl, if_pos (le_refl (10 : ℚ))]
    · have hklt : k < 100 := lt_of_le_of_ne hk hk100
      have hcast : ((k : ℚ)) < 100 := by exact_mod_cast hklt
      have helt : (k : ℚ) / 10 < 10 := by linarith
      have hlt : (k : ℚ) / 10 < load := by linarith
      have hten : ¬ (10 : ℚ) ≤ (k : ℚ) / 10 := by linarith
      rw [sliceLoop, if_pos hlt, if_neg hten]
      show sliceLoop fuel load ((k : ℚ) / 10 + min (1/10) (load - (k : ℚ) / 10)) = (-1, 10)
      have hcastle : ((k : ℚ)) ≤ 99 := by
        have : k ≤ 99 := by omega
        exact_mod_cast this
      have hmin : (1/10 : ℚ) ≤ load - (k : ℚ) / 10 := by linarith
      rw [min_eq_left hmin]
      have hstep : (k : ℚ) / 10 + 1/10 = ((k + 1 : Nat) : ℚ) / 10 := by
        push_cast
        ring
      rw [hstep]
      exact ih (k + 1) load (by omega) (by omega) hl

/-- The slice loop only ever produces error code `0` (success) or `-1`
(timeout): the only assignment to `error_code` in the worker writes `-1`. -/
theorem sliceLoop_code (fuel : Nat) :
    ∀ load elapsed : ℚ, (sliceLoop fuel load elapsed).1 = 0 ∨
      (sliceLoop fuel load elapsed).1 = -1 := by
  induction fuel with
  | zero => intro load elapsed; left; rfl
  | succ fuel ih =>
    intro load elapsed
    rw [sliceLoop]
    by_cases hlt : elapsed < load
    · rw [if_pos hlt]
      by_cases hten : (10 : ℚ) ≤ elapsed
      · rw [if_pos hten]; right; rfl
      · rw [if_neg hten]
        exact ih load (elapsed + min (1/10) (load - elapsed))
    · rw [if_neg hlt]; left; rfl

/-! ## The result aggregator

The global counters `g_total_success` and `g_error_counts` of both C++
files, together with the mutex-guarded update block at the end of the
worker loop.  The `unordered_map<int,int>` is modelled as an association
list; `g_error_counts[code]++` bumps the entry, inserting it (as the map's
`operator[]` does) when absent. -/

/-- The shared counters: `g_total_success` and `g_error_counts`. -/
structure Aggregator where
  total_success : Nat
  error_counts : List (Int × Nat)
deriving DecidableEq, Repr

/-- The initial state: both counters zero / empty. -/
def agg0 : Aggregator := ⟨0, []⟩

/-- `g_error_counts[code]++`: bump the association-list entry for `code`,
inserting a fresh entry with count 1 when absent. -/
def bumpCount : List (Int × Nat) → Int → List (Int × Nat)
  | [], code => [(code, 1)]
  | (k, v) :: rest, code =>
    if k = code then (k, v + 1) :: rest else (k, v) :: bumpCount rest code

/-- The mutex-guarded update at the end of the worker loop:

    if (job->error_code == 0) ++g_total_success;
    else g_error_counts[job->error_code]++; -/
def recordOutcome (agg : Aggregator) (code : Int) : Aggregator :=
  if code = 0 then { agg with total_success := agg.total_success + 1 }
  else { agg with error_counts := bumpCount agg.error_counts code }

/-- Sum of all counts in the error histogram. -/
def histSum (counts : List (Int × Nat)) : Nat := (counts.map (·.2)).sum

/-- The aggregator state after a sequence of job outcomes has been
recorded (the mutex serialises concurrent workers into some such
sequence). -/
def runAggregator (codes : List Int) : Aggregator :=
  codes.foldl recordOutcome agg0

/-- `total_failures` as computed in `main`:
`int total_failures = total_jobs - total_success;` -/
def totalFailuresOf (total_jobs total_success : Int) : Int :=
  total_jobs - total_success

/-- Bumping a code adds exactly one to the histogram's total count. -/
theorem histSum_bumpCount (counts : List (Int × Nat)) (code : Int) :
    histSum (bumpCount counts code) = histSum counts + 1 := by
  induction counts with
  | nil => rfl
  | cons p rest ih =>
    obtain ⟨k, v⟩ := p
    by_cases hk : k = code
    · simp [bumpCount, hk, histSum]
      ring
    · simp [bumpCount, hk, histSum] at ih ⊢
      omega

/-- Each recorded outcome adds exactly one to
`total_success + histSum error_counts`. -/
theorem recordOutcome_total (agg : Aggregator) (code : Int) :
    (recordOutcome agg code).total_success +
      histSum (recordOutcome agg code).error_counts =
    agg.total_success + histSum agg.error_counts + 1 := by
  by_cases hc : code = 0
  · simp [recordOutcome, hc]
    omega
  · simp [recordOutcome, hc, histSum_bumpCount]
    ring

/-- Fold invariant: running a sequence of outcomes from any starting
state raises `total_success + histSum` by the sequence's length. -/
theorem foldl_recordOutcome_total (codes : List Int) :
    ∀ agg : Aggregator,
      (codes.foldl recordOutcome agg).total_success +
        histSum (codes.foldl recordOutcome agg).error_counts =
      agg.total_success + histSum agg.error_counts + codes.length := by
  induction codes with
  | nil => intro agg; simp
  | cons c rest ih =>
    intro agg
    simp only [List.foldl_cons, List.length_cons]
    rw [ih (recordOutcome agg c), recordOutcome_total]
    ring

/-- Every key present after a bump was already present or is the bumped
code. -/
theorem mem_bumpCount (counts : List (Int × Nat)) (code : Int) :
    ∀ p ∈ bumpCount counts code, p ∈ counts ∨ p.1 = code := by
  induction counts with
  | nil =>
    intro p hp
    simp [bumpCount] at hp
    right; rw [hp]
  | cons q rest ih =>
    obtain ⟨k, v⟩ := q
    intro p hp
    by_cases hk : k = code
    · simp [bumpCount, hk] at hp
      rcases hp with hp | hp
      · right; rw [hp]
      · left; simp [hp]
    · simp [bumpCount, hk] at hp
      rcases hp with hp | hp
      · left; simp [hp]
      · rcases ih p hp with h | h
        · left; simp [h]
        · right; exact h

/-! ## The master (dispatcher)

`master` in `simgrid_cluster_with_historical_errors.cpp` (lines 153-180):
job `i` (named `"job" + to_string(i)`, load
`1.0 + (rand()/RAND_MAX)*14.0`) goes to mailbox `"worker" + (i % W)`;
afterwards one `Job("exit", 0.0)` goes to every worker.  Mailboxes are
FIFO from the single sender, so worker `k`'s inbox is the ordered
subsequence of jobs with `i % W = k` followed by the sentinel. -/

/-- `RAND_MAX` of glibc (2^31 - 1); `rand()` returns a value in
`[0, RAND_MAX]`. -/
def RAND_MAX : Nat := 2147483647

/-- The load generator of the master:
`1.0 + (static_cast<double>(rand()) / RAND_MAX) * 14.0`, as a function of
the raw `rand()` draw `r ∈ [0, RAND_MAX]`. -/
def jobTime (r : Nat) : ℚ := 1 + ((r : ℚ) / (RAND_MAX : ℚ)) * 14

/-- The `i`-th job the master creates, with its load given by the random
draw sequence `loadf`. -/
def jobMsg (loadf : Nat → ℚ) (i : Nat) : Job :=
  ⟨"job" ++ toString i, loadf i, 0⟩

/-- The termination sentinel: `Job("exit", 0.0)`. -/
def exitJob : Job := ⟨"exit", 0, 0⟩

/-- Is this message the termination signal?  The worker tests
`job->name == "exit"`. -/
def isExitMsg (j : Job) : Bool := j.name = "exit"

/-- Worker `k`'s inbox for a run with `N` jobs and `W` workers: the jobs
`i` with `i % W = k`, in send order, then the sentinel. -/
def inbox (N W : Nat) (loadf : Nat → ℚ) (k : Nat) : List Job :=
  ((List.range N).filter (fun i => i % W = k)).map (jobMsg loadf) ++ [exitJob]

/-! ## The worker's message loop

`worker` (lines 92-149 of the historical file): receive, exit on the
sentinel, otherwise run the slice loop and record the outcome.  The loop
is modelled over the finite inbox; the Boolean records whether the loop
exited via the sentinel (`true`) or merely ran out of modelled messages
while still waiting (`false`). -/

/-- One worker consuming its inbox, threading the shared aggregator. -/
def workerRun : List Job → Aggregator → Aggregator × Bool
  | [], agg => (agg, false)
  | j :: rest, agg =>
    if isExitMsg j then (agg, true)
    else workerRun rest (recordOutcome agg (processJob j.load).1)

/-- The aggregator state after a list of job loads has been processed and
recorded (in some serialisation order). -/
def finalAgg (loads : List ℚ) : Aggregator :=
  loads.foldl (fun agg load => recordOutcome agg (processJob load).1) agg0

/-! ## Error-code extraction and weighted sampling

`main` of the historical file (lines 218-258): the JSON dictionary is a
site-name → (code → count) mapping; the target site's codes are looked
up (with a `Site not found` diagnostic and an empty table when absent);
`total_weight` sums the counts; the counts, in iteration order, seed a
`std::discrete_distribution`.  The distribution is modelled by its
standard semantics: an integer draw `u` uniform on `[0, total_weight)`
selects the first index whose cumulative weight exceeds `u`. -/

/-- The per-site error table: association list from code label to count
(counts are the non-negative occurrence counts of the JSON input). -/
def ErrorTable := List (String × Nat)

/-- Extraction of the target site's error codes from the dictionary
(lines 227-235).  Returns the site's table and whether the
`Site not found` diagnostic was printed. -/
def extractErrorCodes (dictionary : List (String × List (String × Nat)))
    (queue_name : String) : List (String × Nat) × Bool :=
  match dictionary.lookup queue_name with
  | some codes => (codes, false)
  | none => ([], true)

/-- `total_weight`: the sum of all counts for the site (lines 237-241). -/
def totalWeight (error_codes : List (String × Nat)) : Nat :=
  (error_codes.map (·.2)).sum

/-- The weight vector handed to `discrete_distribution` (lines 248-252):
the counts in iteration order. -/
def weightsOf (error_codes : List (String × Nat)) : List Nat :=
  error_codes.map (·.2)

/-- Inverse-CDF selection of `std::discrete_distribution`: a uniform
integer draw `u ∈ [0, Σ weights)` selects the first index whose
cumulative weight range contains `u`. -/
def selectIndex : List Nat → Nat → Nat
  | [], _ => 0
  | w :: ws, u => if u < w then 0 else selectIndex ws (u - w) + 1

/-- How many of the `total` equiprobable draws select index `i`. -/
def selectCount (ws : List Nat) (i : Nat) : Nat :=
  (List.range ws.sum).countP (fun u => selectIndex ws u = i)

/-! ## The second example file

The worker of `simgrid_cluster_with_errors.cpp` (lines 28-75), embedded
separately: its slice loop and aggregator update are transliterated from
that file so that the equivalence with the historical worker is a
theorem, not a modelling identification.  (The historical worker differs
textually only by the `muted` guards around logging.) -/

/-- The slice loop of the simple example's worker (lines 42-55). -/
def sliceLoopE : Nat → ℚ → ℚ → Int × ℚ
  | 0, _, elapsed => (0, elapsed)
  | fuel+1, load, elapsed =>
    if elapsed < load then
      if 10 ≤ elapsed then (-1, elapsed)
      else
        let remaining := load - elapsed
        let sleep_time := min (1/10) remaining
        sliceLoopE fuel load (elapsed + sleep_time)
    else (0, elapsed)

/-- Per-job processing in the simple example. -/
def processJobE (load : ℚ) : Int × ℚ := sliceLoopE 150 load 0

/-- `g_error_counts[code]++` in the simple example (line 71). -/
def bumpCountE : List (Int × Nat) → Int → List (Int × Nat)
  | [], code => [(code, 1)]
  | (k, v) :: rest, code =>
    if k = code then (k, v + 1) :: rest else (k, v) :: bumpCountE rest code

/-- The mutex-guarded counter update of the simple example
(lines 66-72). -/
def recordOutcomeE (agg : Aggregator) (code : Int) : Aggregator :=
  if code = 0 then { agg with total_success := agg.total_success + 1 }
  else { agg with error_counts := bumpCountE agg.error_counts code }

/-- The two slice loops are the same function. -/
theorem sliceLoopE_eq (fuel : Nat) :
    ∀ load elapsed : ℚ, sliceLoopE fuel load elapsed = sliceLoop fuel load elapsed := by
  induction fuel with
  | zero => intro load elapsed; rfl
  | succ fuel ih =>
    intro load elapsed
    rw [sliceLoopE, sliceLoop]
    by_cases hlt : elapsed < load
    · rw [if_pos hlt, if_pos hlt]
      by_cases hten : (10 : ℚ) ≤ elapsed
      · rw [if_pos hten, if_pos hten]
      · rw [if_neg hten, if_neg hten]
        exact ih load (elapsed + min (1/10) (load - elapsed))
    · rw [if_neg hlt, if_neg hlt]

/-- The two histogram-bump functions are the same function. -/
theorem bumpCountE_eq (counts : List (Int × Nat)) (code : Int) :
    bumpCountE counts code = bumpCount counts code := by
  induction counts with
  | nil => rfl
  | cons p rest ih =>
    obtain ⟨k, v⟩ := p
    by_cases hk : k = code
    · simp [bumpCountE, bumpCount, hk]
    · simp [bumpCountE, bumpCount, hk, ih]

/-- Error codes recorded by the fold stay in `{0, -1}`-keyed histograms:
if every histogram key is `-1` before, it is after. -/
theorem foldl_keys_neg_one (loads : List ℚ) :
    ∀ agg : Aggregator, (∀ p ∈ agg.error_counts, p.1 = -1) →
      ∀ p ∈ (loads.foldl (fun a load => recordOutcome a (processJob load).1)
        agg).error_counts, p.1 = -1 := by
  induction loads with
  | nil => intro agg hagg; simpa using hagg
  | cons load rest ih =>
    intro agg hagg
    simp only [List.foldl_cons]
    apply ih
    intro p hp
    rcases sliceLoop_code 150 load 0 with hc | hc
    · have hc' : (processJob load).1 = 0 := hc
      rw [recordOutcome, if_pos hc'] at hp
      exact hagg p hp
    · have hc' : (processJob load).1 = -1 := hc
      have hne : (processJob load).1 ≠ 0 := by rw [hc']; decide
      rw [recordOutcome, if_neg hne] at hp
      rcases mem_bumpCount agg.error_counts (processJob load).1 p hp with h | h
      · exact hagg p h
      · rw [h, hc']

/-- **C1** (conservation of outcomes).  For every serialised sequence of
recorded job outcomes: `total_success` plus the sum of all histogram
counts equals the number of jobs recorded; the reported `total_failures`
(`total_jobs - total_success`, derived once in `main`) equals the
histogram sum; and each recorded outcome adds exactly one to exactly one
of the two counters (the total rises by one while the other counter is
untouched). -/
theorem outcome_conservation (codes : List Int) :
    (runAggregator codes).total_success +
        histSum (runAggregator codes).error_counts = codes.length
    ∧ totalFailuresOf (codes.length : Int)
        ((runAggregator codes).total_success : Int)
        = (histSum (runAggregator codes).error_counts : Int)
    ∧ ∀ agg : Aggregator, ∀ code : Int,
        (recordOutcome agg code).total_success +
            histSum (recordOutcome agg code).error_counts
          = agg.total_success + histSum agg.error_counts + 1
        ∧ ((recordOutcome agg code).total_success = agg.total_success
           ∨ (recordOutcome agg code).error_counts = agg.error_counts) := by
  have hmain : (runAggregator codes).total_success +
      histSum (runAggregator codes).error_counts = codes.length := by
    have h := foldl_recordOutcome_total codes agg0
    simpa [runAggregator, agg0, histSum] using h
  refine ⟨hmain, ?_, ?_⟩
  · rw [totalFailuresOf]
    omega
  · intro agg code
    refine ⟨recordOutcome_total agg code, ?_⟩
    by_cases hc : code = 0
    · right; simp [recordOutcome, hc]
    · left; simp [recordOutcome, hc]

/-- **C2, counterexample.**  A job whose load is exactly the 10.0-second
ceiling does *not* fail with the timeout code: the slice loop exhausts
the load precisely when `elapsed` reaches 10.0, the loop guard
`elapsed < load` turns false, and the job succeeds with
`error_code = 0`. -/
theorem timeout_at_exact_ceiling :
    (10 : ℚ) ≤ 10 ∧ processJob 10 = (0, 10) ∧ (processJob 10).1 ≠ -1 := by
  have h : processJob 10 = (0, 10) := by
    rw [processJob]
    apply sliceLoop_complete 150 10 0 (by norm_num) (by norm_num)
    norm_num
  refine ⟨le_refl _, h, ?_⟩
  rw [h]
  decide

/-- **C2** (amended: strict inequality).  For every job whose load is
strictly greater than 10.0, the slice loop aborts with the distinguished
timeout code `-1` exactly when `elapsed` reaches the 10.0-second
ceiling, regardless of remaining load. -/
theorem timeout_rule (load : ℚ) (h : 10 < load) :
    processJob load = (-1, 10) := by
  have h0 : ((0 : Nat) : ℚ) / 10 = 0 := by norm_num
  rw [processJob, ← h0]
  exact sliceLoop_timeout 150 0 load (by norm_num) (by norm_num) h

/-- Witness for `timeout_rule` at load 12. -/
theorem timeout_rule_witness :
    (10 : ℚ) < 12 ∧ processJob 12 = (-1, 10) :=
  ⟨by norm_num, timeout_rule 12 (by norm_num)⟩

/-- **C3** (success under the ceiling).  A job whose (non-negative) load
is strictly below 10.0 finishes the slice loop with `elapsed` exactly
equal to its load and outcome `Success` (`error_code = 0`); the timeout
can never fire.  (No error-injection path exists in the worker, so "no
injected error fires" holds vacuously.) -/
theorem success_under_ceiling (load : ℚ) (h0 : 0 ≤ load) (h10 : load < 10) :
    processJob load = (0, load) := by
  rw [processJob]
  apply sliceLoop_complete 150 load 0 h0 (le_of_lt h10)
  push_cast
  linarith

/-- Witness for `success_under_ceiling` at load 3. -/
theorem success_under_ceiling_witness :
    (0 : ℚ) ≤ 3 ∧ (3 : ℚ) < 10 ∧ processJob 3 = (0, 3) :=
  ⟨by norm_num, by norm_num, success_under_ceiling 3 (by norm_num) (by norm_num)⟩

/-- **C4** (sampler never consulted).  The only error code a worker can
ever write is the timeout code `-1` (the worker's slice loop never calls
the discrete distribution built in `main`), so every key of the error
histogram produced by any run equals `-1`. -/
theorem only_timeout_code (loads : List ℚ) :
    (∀ load : ℚ, (processJob load).1 = 0 ∨ (processJob load).1 = -1)
    ∧ ∀ p ∈ (finalAgg loads).error_counts, p.1 = -1 := by
  constructor
  · intro load
    exact sliceLoop_code 150 load 0
  · exact foldl_keys_neg_one loads agg0 (by intro p hp; simp [agg0] at hp)

/-- Witness for `only_timeout_code`: a single job of load 12 times out
and the resulting histogram is exactly `[(-1, 1)]`, whose only key is
`-1`. -/
theorem only_timeout_code_witness :
    ((processJob 12).1 = 0 ∨ (processJob 12).1 = -1)
    ∧ ((-1 : Int), 1).1 = -1 := by
  refine ⟨(only_timeout_code [12]).1 12, ?_⟩
  apply (only_timeout_code [12]).2 ((-1 : Int), 1)
  have h12 : processJob 12 = (-1, 10) := by
    rw [processJob]
    norm_num [sliceLoop]
  simp [finalAgg, agg0, recordOutcome, h12, bumpCount]

/-- **C10** (the two workers are equivalent).  For every received job
load, the worker of `simgrid_cluster_with_errors.cpp` and the worker of
`simgrid_cluster_with_historical_errors.cpp` compute the same final
`(error_code, elapsed)` pair, and their mutex-guarded aggregator updates
coincide on every state and code (the `muted` flag guards only
logging). -/
theorem workers_equivalent :
    (∀ load : ℚ, processJobE load = processJob load)
    ∧ ∀ agg : Aggregator, ∀ code : Int,
        recordOutcomeE agg code = recordOutcome agg code := by
  constructor
  · intro load
    rw [processJobE, processJob, sliceLoopE_eq]
  · intro agg code
    by_cases hc : code = 0
    · simp [recordOutcomeE, recordOutcome, hc]
    · simp [recordOutcomeE, recordOutcome, hc, bumpCountE_eq]

/-- How many of `0, ..., N-1` are congruent to `k` modulo `W`
(the jobs the master sends to worker `k`). -/
theorem count_range_mod (W k : Nat) (hW : 0 < W) (hk : k < W) :
    ∀ N : Nat, ((List.range N).filter (fun i => i % W = k)).length
      = (N - k + (W - 1)) / W := by
  intro N
  induction N with
  | zero =>
    simp [Nat.div_eq_of_lt (by omega : W - 1 < W)]
  | succ N ih =>
    rw [List.range_succ, List.filter_append, List.length_append, ih]
    by_cases hkN : k ≤ N
    · have hmod : (N % W = k) ↔ W ∣ N - k := by
        constructor
        · intro h
          have : N ≡ k [MOD W] := by
            unfold Nat.ModEq
            rw [h, Nat.mod_eq_of_lt hk]
          exact (Nat.modEq_iff_dvd' hkN).mp this.symm
        · intro h
          have : k ≡ N [MOD W] := (Nat.modEq_iff_dvd' hkN).mpr h
          have h2 := this.symm
          unfold Nat.ModEq at h2
          rw [Nat.mod_eq_of_lt hk] at h2
          exact h2
      obtain ⟨M, hM⟩ : ∃ M, N - k = M := ⟨N - k, rfl⟩
      rw [hM] at hmod
      have hNk : N + 1 - k = M + 1 := by omega
      have h1 : M + 1 + (W - 1) = M + W := by omega
      have h2 : (M + W) / W = M / W + 1 := Nat.add_div_right M hW
      by_cases hdv : W ∣ M
      · have : N % W = k := hmod.mpr hdv
        simp only [this, decide_True, List.filter_cons, List.filter_nil]
        rcases Nat.eq_zero_or_pos M with hM0 | hMpos
        · subst hM0
          simp [hM, hNk, h1, h2, Nat.div_eq_of_lt (by omega : W - 1 < W),
            Nat.zero_div, Nat.div_self hW]
        · have h3 : M + (W - 1) = (M - 1) + W := by omega
          have h4 : ((M - 1) + W) / W = (M - 1) / W + 1 := Nat.add_div_right _ hW
          have h5 : M / W = (M - 1) / W + 1 := by
            have := Nat.succ_div (M - 1) W
            have hM1 : M - 1 + 1 = M := by omega
            rw [hM1] at this
            rw [this, if_pos hdv]
          simp [hM, hNk, h1, h2, h3, h4, h5]
      · have : ¬ (N % W = k) := fun h => hdv (hmod.mp h)
        simp only [this, decide_False, List.filter_cons, List.filter_nil]
        rcases Nat.eq_zero_or_pos M with hM0 | hMpos
        · exfalso; exact hdv (hM0 ▸ Nat.dvd_zero W)
        · have h3 : M + (W - 1) = (M - 1) + W := by omega
          have h4 : ((M - 1) + W) / W = (M - 1) / W + 1 := Nat.add_div_right _ hW
          have h5 : M / W = (M - 1) / W := by
            have := Nat.succ_div (M - 1) W
            have hM1 : M - 1 + 1 = M := by omega
            rw [hM1] at this
            rw [this, if_neg hdv, Nat.add_zero]
          simp [hM, hNk, h1, h2, h3, h4, h5]
    · have hNW : N < W := by omega
      have : ¬ (N % W = k) := by
        rw [Nat.mod_eq_of_lt hNW]; omega
      simp only [this, decide_False, List.filter_cons, List.filter_nil]
      have e1 : N + 1 - k = 0 := by omega
      have e2 : N - k = 0 := by omega
      simp [e1, e2]

/-- The truncated natural-number form of the per-worker job count agrees
with the ceiling `⌈(N - k) / W⌉` of the specification. -/
theorem nat_div_eq_ceil (N W k : Nat) (hW : 0 < W) :
    ((N - k + (W - 1)) / W : Nat) = ⌈(((N : ℚ) - (k : ℚ)) / (W : ℚ))⌉₊ := by
  have hWq : (0 : ℚ) < (W : ℚ) := by exact_mod_cast hW
  by_cases hkN : N ≤ k
  · have e1 : N - k = 0 := by omega
    rw [e1, Nat.zero_add, Nat.div_eq_of_lt (by omega : W - 1 < W)]
    symm
    rw [Nat.ceil_eq_zero]
    apply div_nonpos_of_nonpos_of_nonneg
    · have : (N : ℚ) ≤ (k : ℚ) := by exact_mod_cast hkN
      linarith
    · linarith
  · have hkN' : k ≤ N := by omega
    obtain ⟨M, hM⟩ : ∃ M, N - k = M := ⟨N - k, rfl⟩
    have hMpos : 0 < M := by omega
    have hcast : (N : ℚ) - (k : ℚ) = (M : ℚ) := by
      have : (M : ℚ) = ((N - k : Nat) : ℚ) := by rw [hM]
      rw [this, Nat.cast_sub hkN']
    rw [hM, hcast]
    have hm1 : M + (W - 1) = M + W - 1 := by omega
    rw [hm1]
    obtain ⟨m, hm⟩ : ∃ m, (M + W - 1) / W = m := ⟨_, rfl⟩
    have hmpos : 0 < m := by
      rw [← hm]
      have : W ≤ M + W - 1 := by omega
      exact Nat.div_pos this hW
    have hub : m * W ≤ M + W - 1 := by
      rw [← hm]; exact Nat.div_mul_le_self _ _
    have hlb : M + W - 1 < (m + 1) * W := by
      have : (M + W - 1) / W < m + 1 := by omega
      exact Nat.lt_mul_of_div_lt this hW
    have hexp : (m + 1) * W = m * W + W := by ring
    have hexp2 : (m - 1) * W + W = m * W := by
      cases m with
      | zero => omega
      | succ m => simp [Nat.succ_mul, Nat.add_mul]
    obtain ⟨x, hx⟩ : ∃ x, m * W = x := ⟨_, rfl⟩
    rw [hexp, hx] at hlb
    rw [hx] at hub
    have hMle : M ≤ m * W := by rw [hx]; omega
    have hlt : (m - 1) * W < M := by
      have h2 : (m - 1) * W = x - W := by omega
      rw [h2]; omega
    rw [hm]
    symm
    rw [Nat.ceil_eq_iff (by omega : m ≠ 0)]
    constructor
    · rw [lt_div_iff₀ hWq]
      exact_mod_cast hlt
    · rw [div_le_iff₀ hWq]
      exact_mod_cast hMle

/-- A generated job is never mistaken for the sentinel: its name starts
with `"job"`, not `"exit"`. -/
theorem isExitMsg_jobMsg (loadf : Nat → ℚ) (i : Nat) :
    isExitMsg (jobMsg loadf i) = false := by
  rw [isExitMsg, jobMsg]
  simp only [decide_eq_false_iff_not]
  intro h
  have hd := congrArg String.data h
  simp [String.data_append] at hd

/-- **C5** (round-robin dispatch).  Job `i` is sent to worker `i mod W`;
worker `k`'s inbox holds exactly `⌈(N - k)/W⌉` real jobs and exactly one
termination sentinel, which is the last message in the inbox. -/
theorem round_robin_dispatch (N W : Nat) (loadf : Nat → ℚ) (k : Nat)
    (hW : 0 < W) (hk : k < W) :
    (∀ i : Nat, i < N → jobMsg loadf i ∈ inbox N W loadf (i % W))
    ∧ ((inbox N W loadf k).filter (fun j => ! isExitMsg j)).length
        = ⌈(((N : ℚ) - (k : ℚ)) / (W : ℚ))⌉₊
    ∧ ((inbox N W loadf k).filter isExitMsg).length = 1
    ∧ (inbox N W loadf k).getLast? = some exitJob := by
  have hjobs : ∀ j ∈ ((List.range N).filter (fun i => i % W = k)).map
      (jobMsg loadf), isExitMsg j = false := by
    intro j hj
    rcases List.mem_map.mp hj with ⟨i, _, rfl⟩
    exact isExitMsg_jobMsg loadf i
  refine ⟨?_, ?_, ?_, ?_⟩
  · intro i hi
    rw [inbox]
    apply List.mem_append_left
    apply List.mem_map_of_mem
    simp [List.mem_filter, List.mem_range, hi]
  · rw [inbox, List.filter_append]
    have h1 : (((List.range N).filter (fun i => i % W = k)).map
        (jobMsg loadf)).filter (fun j => ! isExitMsg j)
        = ((List.range N).filter (fun i => i % W = k)).map (jobMsg loadf) := by
      apply List.filter_eq_self.mpr
      intro j hj
      rw [hjobs j hj]
      rfl
    have h2 : ([exitJob].filter (fun j => ! isExitMsg j)) = [] := by rfl
    rw [h1, h2, List.append_nil, List.length_map, count_range_mod W k hW hk,
      nat_div_eq_ceil N W k hW]
  · rw [inbox, List.filter_append]
    have h1 : (((List.range N).filter (fun i => i % W = k)).map
        (jobMsg loadf)).filter isExitMsg = [] := by
      apply List.filter_eq_nil_iff.mpr
      intro j hj
      rw [hjobs j hj]
      decide
    have h2 : ([exitJob].filter isExitMsg) = [exitJob] := by rfl
    rw [h1, h2, List.nil_append, List.length_singleton]
  · rw [inbox, List.getLast?_concat]

/-- Witness for `round_robin_dispatch` with `N = 5`, `W = 2`, `k = 1`
and constant load 3: job 3 lands at worker `3 % 2 = 1`, worker 1 holds
`⌈(5-1)/2⌉ = 2` real jobs and one final sentinel. -/
theorem round_robin_dispatch_witness :
    (jobMsg (fun _ => 3) 3 ∈ inbox 5 2 (fun _ => 3) (3 % 2))
    ∧ ((inbox 5 2 (fun _ => 3) 1).filter (fun j => ! isExitMsg j)).length
        = ⌈(((5 : ℚ) - (1 : ℚ)) / (2 : ℚ))⌉₊
    ∧ ((inbox 5 2 (fun _ => 3) 1).filter isExitMsg).length = 1
    ∧ (inbox 5 2 (fun _ => 3) 1).getLast? = some exitJob := by
  obtain ⟨h1, h2, h3, h4⟩ :=
    round_robin_dispatch 5 2 (fun _ => 3) 1 (by norm_num) (by norm_num)
  exact ⟨h1 3 (by norm_num), h2, h3, h4⟩

/-- **C9** (sentinel-only exit).  A worker's loop exits exactly upon
receiving the termination sentinel: on a message list of non-sentinel
jobs followed by the sentinel, every job (failures included) is
processed and recorded, the sentinel records no outcome, and the loop
reports an exit (`true`); on the same list without the sentinel the loop
records the same outcomes but never exits (`false`). -/
theorem sentinel_only_exit (msgs : List Job) (agg : Aggregator)
    (h : ∀ j ∈ msgs, isExitMsg j = false) :
    workerRun (msgs ++ [exitJob]) agg
      = (msgs.foldl (fun a j => recordOutcome a (processJob j.load).1) agg, true)
    ∧ workerRun msgs agg
      = (msgs.foldl (fun a j => recordOutcome a (processJob j.load).1) agg, false) := by
  induction msgs generalizing agg with
  | nil =>
    constructor
    · rw [List.nil_append, List.foldl_nil, workerRun]
      rw [if_pos (by rfl : isExitMsg exitJob = true)]
    · rw [List.foldl_nil, workerRun]
  | cons j rest ih =>
    have hj : isExitMsg j = false := h j (List.mem_cons_self j rest)
    have hrest : ∀ j ∈ rest, isExitMsg j = false :=
      fun j hjm => h j (List.mem_cons_of_mem _ hjm)
    constructor
    · rw [List.cons_append, workerRun, if_neg (by rw [hj]; decide), List.foldl_cons]
      exact (ih _ hrest).1
    · rw [workerRun, if_neg (by rw [hj]; decide), List.foldl_cons]
      exact (ih _ hrest).2

/-- Witness for `sentinel_only_exit`: a single job that times out
(load 12) is recorded and only the sentinel ends the loop. -/
theorem sentinel_only_exit_witness :
    workerRun ([Job.mk "job0" 12 0] ++ [exitJob]) agg0
      = ([Job.mk "job0" 12 0].foldl
          (fun a j => recordOutcome a (processJob j.load).1) agg0, true)
    ∧ workerRun [Job.mk "job0" 12 0] agg0
      = ([Job.mk "job0" 12 0].foldl
          (fun a j => recordOutcome a (processJob j.load).1) agg0, false) :=
  sentinel_only_exit [Job.mk "job0" 12 0] agg0 (by
    intro j hj
    simp only [List.mem_singleton] at hj
    rw [hj, isExitMsg]
    decide)

/-- **C6, counterexample.**  The load generated when `rand()` returns
`RAND_MAX` is exactly `1.0 + (RAND_MAX/RAND_MAX)*14.0 = 15.0`, which
lies outside the claimed half-open interval `[1.0, 15.0)`. -/
theorem load_at_rand_max :
    RAND_MAX ≤ RAND_MAX ∧ jobTime RAND_MAX = 15 ∧ ¬ (jobTime RAND_MAX < 15) := by
  have h : jobTime RAND_MAX = 15 := by
    rw [jobTime, RAND_MAX]
    norm_num
  exact ⟨le_refl _, h, by rw [h]; exact lt_irrefl 15⟩

/-- **C6** (amended: closed interval).  Every load generated by the
dispatcher from a raw draw `r ∈ [0, RAND_MAX]` lies in the closed
interval `[1.0, 15.0]`; the right endpoint is attained exactly at
`r = RAND_MAX`. -/
theorem load_range (r : Nat) (hr : r ≤ RAND_MAX) :
    1 ≤ jobTime r ∧ jobTime r ≤ 15 := by
  have hq : (r : ℚ) ≤ ((RAND_MAX : Nat) : ℚ) := by exact_mod_cast hr
  have hpos : (0 : ℚ) < ((RAND_MAX : Nat) : ℚ) := by norm_num [RAND_MAX]
  constructor
  · have h0 : (0 : ℚ) ≤ (r : ℚ) / ((RAND_MAX : Nat) : ℚ) :=
      div_nonneg (by positivity) (le_of_lt hpos)
    rw [jobTime]
    nlinarith
  · have h1 : (r : ℚ) / ((RAND_MAX : Nat) : ℚ) ≤ 1 := (div_le_one hpos).mpr hq
    rw [jobTime]
    nlinarith

/-- Witness for `load_range` at `r = 0`: the smallest draw gives the
minimal load 1. -/
theorem load_range_witness :
    0 ≤ RAND_MAX ∧ 1 ≤ jobTime 0 ∧ jobTime 0 ≤ 15 :=
  ⟨Nat.zero_le _, load_range 0 (Nat.zero_le _)⟩

/-- A draw inside the total weight always selects an index whose weight
is positive. -/
theorem selectIndex_pos (ws : List Nat) :
    ∀ u, u < ws.sum → 0 < ws.getD (selectIndex ws u) 0 := by
  induction ws with
  | nil => intro u hu; simp at hu
  | cons w ws ih =>
    intro u hu
    rw [selectIndex]
    by_cases hw : u < w
    · rw [if_pos hw]
      simp only [List.getD_cons_zero]
      omega
    · rw [if_neg hw]
      simp only [List.getD_cons_succ]
      apply ih
      simp only [List.sum_cons] at hu
      omega

/-- Exactly `ws[i]` of the `Σ ws` equiprobable draws select index `i`. -/
theorem selectCount_eq (ws : List Nat) :
    ∀ i, selectCount ws i = ws.getD i 0 := by
  induction ws with
  | nil => intro i; simp [selectCount]
  | cons w ws ih =>
    intro i
    rw [selectCount, List.sum_cons, List.range_add, List.countP_append,
      List.countP_map]
    cases i with
    | zero =>
      have h1 : (List.range w).countP (fun u => selectIndex (w :: ws) u = 0) = w := by
        rw [List.countP_eq_length.mpr, List.length_range]
        intro u hu
        rw [List.mem_range] at hu
        simp [selectIndex, hu]
      have h2 : (List.range ws.sum).countP
          ((fun u => decide (selectIndex (w :: ws) u = 0)) ∘ (w + ·)) = 0 := by
        rw [List.countP_eq_zero]
        intro v _
        simp only [Function.comp_apply, decide_eq_true_eq]
        rw [selectIndex, if_neg (by omega)]
        omega
      rw [h1, h2]
      simp
    | succ i =>
      have h1 : (List.range w).countP
          (fun u => selectIndex (w :: ws) u = i + 1) = 0 := by
        rw [List.countP_eq_zero]
        intro u hu
        rw [List.mem_range] at hu
        simp [selectIndex, hu]
      have h2 : (List.range ws.sum).countP
          ((fun u => decide (selectIndex (w :: ws) u = i + 1)) ∘ (w + ·))
          = (List.range ws.sum).countP (fun v => selectIndex ws v = i) := by
        apply List.countP_congr
        intro v _
        simp only [Function.comp_apply, decide_eq_true_eq]
        rw [selectIndex, if_neg (by omega)]
        have hv : w + v - w = v := by omega
        rw [hv]
        omega
      rw [h1, h2]
      have := ih i
      rw [selectCount] at this
      rw [this]
      simp

/-- **C8** (weighted sampling).  The sampler built from the target
site's `(code, count)` pairs uses the counts as weights: index `i` is
drawn with probability `count_i / total_weight` (here: `count_i` of the
`total_weight` equiprobable integer draws select index `i`), and an
entry with weight 0 is never selected by any draw. -/
theorem weighted_sampling (error_codes : List (String × Nat)) (i : Nat) :
    selectCount (weightsOf error_codes) i = (weightsOf error_codes).getD i 0
    ∧ ((selectCount (weightsOf error_codes) i : ℚ) / (totalWeight error_codes : ℚ)
        = ((weightsOf error_codes).getD i 0 : ℚ) / (totalWeight error_codes : ℚ))
    ∧ ∀ u : Nat, u < totalWeight error_codes →
        0 < (weightsOf error_codes).getD (selectIndex (weightsOf error_codes) u) 0 := by
  have hsum : totalWeight error_codes = (weightsOf error_codes).sum := rfl
  refine ⟨selectCount_eq _ i, ?_, ?_⟩
  · rw [selectCount_eq _ i]
  · intro u hu
    apply selectIndex_pos
    rw [← hsum]
    exact hu

/-- Witness for `weighted_sampling` on the table `{A: 3, B: 1}` at index
1 and draw 2: index 1 carries weight 1 of total 4, and draw 2 (which
selects index 0) hits a positive weight. -/
theorem weighted_sampling_witness :
    selectCount (weightsOf [("A", 3), ("B", 1)]) 1
        = (weightsOf [("A", 3), ("B", 1)]).getD 1 0
    ∧ ((selectCount (weightsOf [("A", 3), ("B", 1)]) 1 : ℚ)
          / (totalWeight [("A", 3), ("B", 1)] : ℚ)
        = ((weightsOf [("A", 3), ("B", 1)]).getD 1 0 : ℚ)
          / (totalWeight [("A", 3), ("B", 1)] : ℚ))
    ∧ 0 < (weightsOf [("A", 3), ("B", 1)]).getD
        (selectIndex (weightsOf [("A", 3), ("B", 1)]) 2) 0 := by
  obtain ⟨h1, h2, h3⟩ := weighted_sampling [("A", 3), ("B", 1)] 1
  exact ⟨h1, h2, h3 2 (by decide)⟩

/-- **C7** (site absent fallback).  When the target site is missing from
the dictionary, the diagnostic is emitted and the site's error-code
table is empty, so the sampler has total weight zero — no draw exists
and no sampled code exists — and every failure key any run can put into
the histogram is the timeout code `-1`. -/
theorem site_absent_fallback (dictionary : List (String × List (String × Nat)))
    (queue_name : String) (h : dictionary.lookup queue_name = none) :
    extractErrorCodes dictionary queue_name = ([], true)
    ∧ totalWeight (extractErrorCodes dictionary queue_name).1 = 0
    ∧ (∀ u : Nat, ¬ u < totalWeight (extractErrorCodes dictionary queue_name).1)
    ∧ (∀ u : Nat, ((extractErrorCodes dictionary queue_name).1.get?
          (selectIndex (weightsOf (extractErrorCodes dictionary queue_name).1) u))
        = none)
    ∧ ∀ loads : List ℚ, ∀ p ∈ (finalAgg loads).error_counts, p.1 = -1 := by
  have hext : extractErrorCodes dictionary queue_name = ([], true) := by
    rw [extractErrorCodes, h]
  refine ⟨hext, ?_, ?_, ?_, ?_⟩
  · rw [hext]; rfl
  · intro u
    rw [hext]
    simp [totalWeight]
  · intro u
    rw [hext]
    rfl
  · intro loads
    exact foldl_keys_neg_one loads agg0 (by intro p hp; simp [agg0] at hp)

/-- Witness for `site_absent_fallback`: a dictionary holding only site
`"CERN"` queried for site `"UNKNOWN"`. -/
theorem site_absent_fallback_witness :
    extractErrorCodes [("CERN", [("1099", 3)])] "UNKNOWN" = ([], true)
    ∧ totalWeight (extractErrorCodes [("CERN", [("1099", 3)])] "UNKNOWN").1 = 0
    ∧ ¬ (0 : Nat) < totalWeight (extractErrorCodes [("CERN", [("1099", 3)])] "UNKNOWN").1
    ∧ ((extractErrorCodes [("CERN", [("1099", 3)])] "UNKNOWN").1.get?
        (selectIndex (weightsOf (extractErrorCodes [("CERN", [("1099", 3)])] "UNKNOWN").1) 0))
      = none
    ∧ ((-1 : Int), 1).1 = -1 := by
  have h : ([("CERN", [("1099", 3)])] :
      List (String × List (String × Nat))).lookup "UNKNOWN" = none := by
    simp [List.lookup]
  obtain ⟨h1, h2, h3, h4, h5⟩ :=
    site_absent_fallback [("CERN", [("1099", 3)])] "UNKNOWN" h
  refine ⟨h1, h2, h3 0, h4 0, ?_⟩
  apply h5 [12] ((-1 : Int), 1)
  have h12 : processJob 12 = (-1, 10) := by
    rw [processJob]
    norm_num [sliceLoop]
  simp [finalAgg, agg0, recordOutcome, h12, bumpCount]

end SimgridCluster
